import Mathlib

/-!
Verification of the tempo-map-based beat/time conversion engine of the
`ai_piano_difficulty` repository.

Shallow embedding notes:
* Python floats are modelled as rationals (`ℚ`); the algorithms under test are
  exact piecewise-linear arithmetic, so the control flow is preserved verbatim.
* `json_to_midi.py`:
  - `get_time_from_beat` (lines 9-44) is embedded as `get_time_from_beat`,
    with the linear segment search embedded as `findSeg` and the python
    `dict.get(beat, 120.0)` lookup embedded as `dictGet` over an association
    list whose insert prepends (later inserts shadow earlier ones, matching
    dict assignment).
  - the tempo-map normalization (lines 88-98: stable sort by beat, then
    synthesis of a beat-0 anchor) is `normalizeTempoMap`; python's stable
    `list.sort` is modelled by stable insertion sort with `beatLE`.
  - the anchor-table build loop (lines 104-145) is `buildStep`/`buildLoop`/
    `buildAnchors` over the loop state `BuildState` (fields named after the
    python locals).
  - instrument creation (lines 150-168) is `explicitTracks`/`instrumentTracks`
    (only membership of the instrument key set is relevant downstream).
  - the per-note validation / conversion / clamping body (lines 177-242) is
    `processNote`, and the whole loop with its counters is `processAllNotes`.
  - the empty-tempo-map handling (lines 80-84) is `jsonToMidiTempoGuard`
    (`some` = run continues with that map, `none` = run aborts).
* `json_to_midi_WORKING.py` lines 53-57 (empty tempo map aborts) is
  `jsonToMidiWorkingTempoGuard`.
* `midi_to_json.py`:
  - `ticks_to_beats` (lines 7-8) is `ticks_to_beats`.
  - the beat-0 anchor synthesis (lines 56-62) is `midiNormalizeTempoMap`.
  - the per-note duration computation with its minimum-duration branch
    (lines 76-94) is `midiNoteToJson`.
-/

namespace AiPiano

/-- A tempo event `{beat, bpm}` of the JSON tempo map. -/
structure TempoEvent where
  beat : ℚ
  bpm : ℚ
  deriving DecidableEq, Repr

/-- The comparison key of the python stable sorts
`tempo_map.sort(key=lambda x: x['beat'])`. -/
def beatLE (a b : TempoEvent) : Prop := a.beat ≤ b.beat

instance : DecidableRel beatLE := fun a b => inferInstanceAs (Decidable (a.beat ≤ b.beat))

instance : IsTotal TempoEvent beatLE := ⟨fun a b => le_total a.beat b.beat⟩

instance : IsTrans TempoEvent beatLE := ⟨fun _ _ _ hab hbc => le_trans hab hbc⟩

/-- Strict version of `beatLE`, used to state sortedness invariants. -/
def beatLT (a b : TempoEvent) : Prop := a.beat < b.beat

/-- Embeds `json_to_midi.py` lines 88-98: sort the tempo map by beat (python's sort
is stable, modelled by stable insertion sort) and, when the first event sits
at a beat `> 0`, synthesize a default `{beat: 0, bpm: 120}` anchor ahead of
it. -/
def normalizeTempoMap (tempo_map : List TempoEvent) : List TempoEvent :=
  match List.insertionSort beatLE tempo_map with
  | [] => []
  | e :: rest => if e.beat > 0 then ⟨0, 120⟩ :: e :: rest else e :: rest

/-- Embeds `midi_to_json.py` lines 56-62: sort the tempo map by beat and, when it is
empty or its first event sits at a beat `> 0`, insert a beat-0 event whose bpm
is the first event's bpm (`120` only when no event exists at all). -/
def midiNormalizeTempoMap (tempo_map : List TempoEvent) : List TempoEvent :=
  match List.insertionSort beatLE tempo_map with
  | [] => [⟨0, 120⟩]
  | e :: rest => if e.beat > 0 then ⟨0, e.bpm⟩ :: e :: rest else e :: rest

/-- Embeds `json_to_midi.py` lines 80-84: an empty `tempo_map` is replaced by the
default `[{beat: 0, bpm: 120}]` and the run continues (`some` = continue with
this map, `none` would be an abort — which this script never takes here). -/
def jsonToMidiTempoGuard (tempo_map : List TempoEvent) : Option (List TempoEvent) :=
  if tempo_map = [] then some [⟨0, 120⟩] else some tempo_map

/-- Embeds `json_to_midi_WORKING.py` lines 53-57: an empty `tempo_map` is a fatal
error — the function returns without producing any output (`none`). -/
def jsonToMidiWorkingTempoGuard (tempo_map : List TempoEvent) : Option (List TempoEvent) :=
  if tempo_map = [] then none else some tempo_map

/-- Lookup in the python `tempo_map_dict` (`dict.get(key, default)`): the
association list is prepended on assignment, so the first hit from the head is
the most recent assignment. -/
def dictGet (d : List (ℚ × ℚ)) (k dflt : ℚ) : ℚ :=
  match d.find? (fun p => decide (p.1 = k)) with
  | some p => p.2
  | none => dflt

/-- The mutable locals of the anchor-table build loop,
`json_to_midi.py` lines 104-109. -/
structure BuildState where
  beat_time_map : List (ℚ × ℚ)
  tempo_map_dict : List (ℚ × ℚ)
  current_time_sec : ℚ
  last_beat : ℚ
  last_bpm : ℚ
  deriving DecidableEq, Repr

/-- One iteration of the anchor-table build loop, `json_to_midi.py`
lines 111-141: skip out-of-order events, coerce non-positive bpm to 120,
accumulate elapsed time (for `i > 0`) at the previous event's bpm, and append
a lookup anchor only for the first event at a given beat. -/
def buildStep (i : ℕ) (st : BuildState) (e : TempoEvent) : BuildState :=
  if e.beat < st.last_beat then st
  else
    let event_bpm := if e.bpm ≤ 0 then 120 else e.bpm
    let t := if 0 < i ∧ 0 < st.last_bpm then
        st.current_time_sec + (e.beat - st.last_beat) * 60 / st.last_bpm
      else st.current_time_sec
    if e.beat > st.last_beat ∨ i = 0 then
      ⟨st.beat_time_map ++ [(e.beat, t)], (e.beat, event_bpm) :: st.tempo_map_dict,
        t, e.beat, event_bpm⟩
    else
      ⟨st.beat_time_map, st.tempo_map_dict, t, e.beat, event_bpm⟩

/-- The `for i, event in enumerate(tempo_map)` loop driving `buildStep`. -/
def buildLoop : List TempoEvent → ℕ → BuildState → BuildState
  | [], _, st => st
  | e :: rest, i, st => buildLoop rest (i + 1) (buildStep i st e)

/-- The initial loop state, `json_to_midi.py` lines 105-109:
`beat_time_map = [(0.0, 0.0)]`, empty dict, time 0, `last_beat = 0`,
`last_bpm = 120`. -/
def initState : BuildState := ⟨[(0, 0)], [], 0, 0, 120⟩

/-- The complete anchor-table build of `json_to_midi.py` lines 104-145. -/
def buildAnchors (tempo_map : List TempoEvent) : BuildState :=
  buildLoop tempo_map 0 initState

/-- The segment search of `get_time_from_beat`, `json_to_midi.py`
lines 18-27: the first adjacent pair `(m[i], m[i+1])` with
`m[i].beat ≤ target < m[i+1].beat` selects `m[i]`; if no pair matches, the
last entry is used (python's `for ... else` with `map_idx = len - 1`). -/
def findSeg : List (ℚ × ℚ) → ℚ → ℚ × ℚ
  | [], _ => (0, 0)
  | [a], _ => a
  | a :: b :: rest, target => if a.1 ≤ target ∧ target < b.1 then a else findSeg (b :: rest) target

/-- Embeds `json_to_midi.py` lines 9-44: convert a beat to seconds using the anchor
table. Empty table: fall back to a constant 120 bpm. Otherwise interpolate
from the located segment start at the bpm stored for that anchor
(`dict.get(beat, 120.0)`), treating a non-positive bpm as a zero time offset. -/
def get_time_from_beat (target_beat : ℚ) (beat_time_map tempo_map_dict : List (ℚ × ℚ)) : ℚ :=
  if beat_time_map = [] then target_beat * 60 / 120
  else
    let seg := findSeg beat_time_map target_beat
    let active_bpm := dictGet tempo_map_dict seg.1 120
    let beat_offset := target_beat - seg.1
    let time_offset_sec := if 0 < active_bpm then beat_offset * 60 / active_bpm else 0
    seg.2 + time_offset_sec

/-- A raw JSON note entry: either not a structured record at all, or a record
with optional `pitch`, `start_beat`, `duration_beat`, `velocity`, `track`
fields (in that order; `None` = field absent). -/
inductive RawNote where
  | notRecord : RawNote
  | record : Option ℤ → Option ℚ → Option ℚ → Option ℤ → Option ℤ → RawNote
  deriving DecidableEq, Repr

/-- A converted note as handed to `pretty_midi.Note`
(`json_to_midi.py` lines 222-227). -/
structure MidiNote where
  velocity : ℤ
  pitch : ℤ
  start_time : ℚ
  end_time : ℚ
  deriving DecidableEq, Repr

/-- Outcome of one iteration of the note loop: the note is added (the boolean
records whether the minimum-duration clamp warning fired) or skipped. -/
inductive NoteResult where
  | added : MidiNote → Bool → NoteResult
  | skipped : NoteResult
  deriving DecidableEq, Repr

/-- Embeds `json_to_midi.py` lines 152-168: the set of track ids that get an
instrument. Only notes carrying an explicit `track` key contribute; negative
ids are dropped; when nothing remains, a default track 0 is created. Only
membership of this set is consumed downstream (line 197). -/
def explicitTracks (notes : List RawNote) : List ℤ :=
  notes.filterMap fun r =>
    match r with
    | .record _ _ _ _ (some t) => some t
    | _ => none

/-- The track ids for which an instrument exists after
`json_to_midi.py` lines 152-168. -/
def instrumentTracks (notes : List RawNote) : List ℤ :=
  let ts := (explicitTracks notes).filter (fun t => decide (0 ≤ t))
  if ts = [] then [0] else ts

/-- One iteration of the note loop, `json_to_midi.py` lines 177-242:
non-record entries and records with a missing required field are skipped
(KeyError path); then the range validations run in source order; then the
beat-to-time conversion; then the non-positive-duration clamp to
`start_time + 0.001` with a warning. -/
def processNote (beat_time_map tempo_map_dict : List (ℚ × ℚ)) (instruments : List ℤ) :
    RawNote → NoteResult
  | .notRecord => .skipped
  | .record none _ _ _ _ => .skipped
  | .record _ none _ _ _ => .skipped
  | .record _ _ none _ _ => .skipped
  | .record (some pitch) (some start_beat) (some duration_beat) velocity? track? =>
    let velocity := velocity?.getD 100
    let track := track?.getD 0
    if ¬ (0 ≤ pitch ∧ pitch ≤ 127) then .skipped
    else if ¬ (0 ≤ velocity ∧ velocity ≤ 127) then .skipped
    else if start_beat < 0 then .skipped
    else if duration_beat ≤ 0 then .skipped
    else if track ∉ instruments then .skipped
    else
      let start_time := get_time_from_beat start_beat beat_time_map tempo_map_dict
      let end_time := get_time_from_beat (start_beat + duration_beat) beat_time_map tempo_map_dict
      if end_time ≤ start_time then
        .added ⟨velocity, pitch, start_time, start_time + 1 / 1000⟩ true
      else
        .added ⟨velocity, pitch, start_time, end_time⟩ false

/-- One step of the note-loop accumulator
`(converted notes, note_count, skipped_count)`. -/
def noteFold (beat_time_map tempo_map_dict : List (ℚ × ℚ)) (instruments : List ℤ)
    (acc : List MidiNote × ℕ × ℕ) (r : RawNote) : List MidiNote × ℕ × ℕ :=
  match processNote beat_time_map tempo_map_dict instruments r with
  | .added n _ => (acc.1 ++ [n], acc.2.1 + 1, acc.2.2)
  | .skipped => (acc.1, acc.2.1, acc.2.2 + 1)

/-- The whole note loop of `json_to_midi.py` lines 171-242, returning the
converted notes (in iteration order) together with the `note_count` and
`skipped_count` counters. -/
def processAllNotes (beat_time_map tempo_map_dict : List (ℚ × ℚ)) (instruments : List ℤ)
    (notes : List RawNote) : List MidiNote × ℕ × ℕ :=
  notes.foldl (noteFold beat_time_map tempo_map_dict instruments) ([], 0, 0)

/-- The validation violations listed by the note-validation claim: not a
record, missing required field, pitch/velocity out of `[0,127]`, negative
start beat, non-positive duration. -/
def InvalidNote : RawNote → Prop
  | .notRecord => True
  | .record none _ _ _ _ => True
  | .record _ none _ _ _ => True
  | .record _ _ none _ _ => True
  | .record (some pitch) (some start_beat) (some duration_beat) velocity? _ =>
      ¬ (0 ≤ pitch ∧ pitch ≤ 127) ∨
      ¬ (0 ≤ velocity?.getD 100 ∧ velocity?.getD 100 ≤ 127) ∨
      start_beat < 0 ∨ duration_beat ≤ 0

/-- Embeds `midi_to_json.py` lines 7-8. -/
def ticks_to_beats (ticks resolution : ℤ) : ℚ := (ticks : ℚ) / (resolution : ℚ)

/-- A note record of the JSON document emitted by `midi_to_json.py`
(lines 88-94). -/
structure JsonNote where
  pitch : ℤ
  start_beat : ℚ
  duration_beat : ℚ
  velocity : ℤ
  track : ℕ
  deriving DecidableEq, Repr

/-- Embeds `midi_to_json.py` lines 76-94: convert a note's tick positions to beats
and assign a one-tick duration whenever the computed duration is
non-positive. -/
def midiNoteToJson (resolution pitch velocity start_tick end_tick : ℤ) (track : ℕ) : JsonNote :=
  let start_beat := ticks_to_beats start_tick resolution
  let end_beat := ticks_to_beats end_tick resolution
  let duration_beat := end_beat - start_beat
  let duration_beat := if duration_beat ≤ 0 then ticks_to_beats 1 resolution else duration_beat
  ⟨pitch, start_beat, duration_beat, velocity, track⟩

/-! ## Concrete evaluations used by several claims -/

/-- The anchor table built for the tempo map of Scenario A,
`[{beat:0,bpm:120},{beat:4,bpm:60}]`. -/
theorem buildAnchors_scenA :
    buildAnchors (normalizeTempoMap [⟨0, 120⟩, ⟨4, 60⟩]) =
      ⟨[(0, 0), (0, 0), (4, 2)], [(4, 60), (0, 120)], 2, 4, 60⟩ := by
  norm_num [buildAnchors, normalizeTempoMap, buildLoop, buildStep, initState, beatLE]

/-- The anchor table built for a tempo map with two events at beat 2 whose
second duplicate is faster (60 then 120 bpm), followed by an anchor at
beat 4. -/
theorem buildAnchors_dup :
    buildAnchors (normalizeTempoMap [⟨0, 120⟩, ⟨2, 60⟩, ⟨2, 120⟩, ⟨4, 100⟩]) =
      ⟨[(0, 0), (0, 0), (2, 1), (4, 2)], [(4, 100), (2, 60), (0, 120)], 2, 4, 100⟩ := by
  norm_num [buildAnchors, normalizeTempoMap, buildLoop, buildStep, initState, beatLE]

/-! ## C2 — Scenario A -/

/-- C2: for the tempo map `[{beat:0,bpm:120},{beat:4,bpm:60}]`, a note with
`start_beat = 4` and `duration_beat = 2` converts to `start_time = 2` seconds
and `end_time = 4` seconds (and is added, not clamped). -/
theorem C2_note_times :
    processNote (buildAnchors (normalizeTempoMap [⟨0, 120⟩, ⟨4, 60⟩])).beat_time_map
      (buildAnchors (normalizeTempoMap [⟨0, 120⟩, ⟨4, 60⟩])).tempo_map_dict [0]
      (.record (some 60) (some 4) (some 2) none none) = .added ⟨100, 60, 2, 4⟩ false := by
  rw [buildAnchors_scenA]
  norm_num [processNote, get_time_from_beat, findSeg, dictGet, List.cons_ne_nil]

/-! ## C1 — monotonicity of `get_time_from_beat` -/

/-- C1 counterexample: over the anchor table built from the normalized tempo
map `[{0,120},{2,60},{2,120},{4,100}]` (two events at beat 2), the
beat-to-time conversion is not monotone: the time at beat `7/2` (namely `5/2`)
exceeds the time at beat `4` (namely `2`), because interpolation past beat 2
uses the first duplicate's bpm (60) while the accumulated time of the beat-4
anchor was computed with the second duplicate's bpm (120). -/
theorem C1_counterexample :
    ¬ (get_time_from_beat (7 / 2)
        (buildAnchors (normalizeTempoMap [⟨0, 120⟩, ⟨2, 60⟩, ⟨2, 120⟩, ⟨4, 100⟩])).beat_time_map
        (buildAnchors (normalizeTempoMap [⟨0, 120⟩, ⟨2, 60⟩, ⟨2, 120⟩, ⟨4, 100⟩])).tempo_map_dict ≤
      get_time_from_beat 4
        (buildAnchors (normalizeTempoMap [⟨0, 120⟩, ⟨2, 60⟩, ⟨2, 120⟩, ⟨4, 100⟩])).beat_time_map
        (buildAnchors
          (normalizeTempoMap [⟨0, 120⟩, ⟨2, 60⟩, ⟨2, 120⟩, ⟨4, 100⟩])).tempo_map_dict) := by
  rw [buildAnchors_dup]
  norm_num [get_time_from_beat, findSeg, dictGet, List.cons_ne_nil]

/-! ## C4 — beat-0 anchor synthesis -/

/-- C4 counterexample: `midi_to_json.py` (lines 58-62) synthesizes the beat-0
anchor with the *first event's* bpm, not 120: for the tempo map
`[{beat:2,bpm:90}]` the synthesized anchor is `{beat:0,bpm:90}`. -/
theorem C4_counterexample :
    midiNormalizeTempoMap [⟨2, 90⟩] = [⟨0, 90⟩, ⟨2, 90⟩] ∧
      (⟨0, 90⟩ : TempoEvent).bpm ≠ 120 := by
  constructor
  · norm_num [midiNormalizeTempoMap]
  · norm_num

/-- C4 amended: when the sorted tempo map's first event has beat `> 0`, both
normalizations prepend a beat-0 anchor, so the canonical map's first element
has beat 0; `json_to_midi.py` synthesizes bpm 120, while `midi_to_json.py`
synthesizes the first event's bpm. -/
theorem C4_amended (tm : List TempoEvent) (e : TempoEvent) (rest : List TempoEvent)
    (hs : List.insertionSort beatLE tm = e :: rest) (hpos : 0 < e.beat) :
    normalizeTempoMap tm = ⟨0, 120⟩ :: e :: rest ∧
      midiNormalizeTempoMap tm = ⟨0, e.bpm⟩ :: e :: rest := by
  constructor <;> simp [normalizeTempoMap, midiNormalizeTempoMap, hs, hpos]

/-- Witness for `C4_amended` at the concrete tempo map `[{beat:2,bpm:90}]`. -/
theorem C4_witness :
    normalizeTempoMap [⟨2, 90⟩] = [⟨0, 120⟩, ⟨2, 90⟩] ∧
      midiNormalizeTempoMap [⟨2, 90⟩] = [⟨0, 90⟩, ⟨2, 90⟩] :=
  C4_amended [⟨2, 90⟩] ⟨2, 90⟩ [] (by simp) (by norm_num)

/-! ## C5 — empty tempo map -/

/-- C5 counterexample: in `json_to_midi.py` (lines 80-84) an empty tempo map
does *not* abort the run — the guard never returns the abort value. -/
theorem C5_counterexample : jsonToMidiTempoGuard [] ≠ none := by
  simp [jsonToMidiTempoGuard]

/-- C5 amended: on an empty tempo map, `json_to_midi.py` substitutes the
default `[{beat:0,bpm:120}]` and continues, while `json_to_midi_WORKING.py`
aborts without output. -/
theorem C5_amended :
    jsonToMidiTempoGuard [] = some [⟨0, 120⟩] ∧ jsonToMidiWorkingTempoGuard [] = none := by
  constructor <;> simp [jsonToMidiTempoGuard, jsonToMidiWorkingTempoGuard]

/-! ## C8 — empty anchor table fallback -/

/-- C8: with an empty `beat_time_map`, `get_time_from_beat` falls back to a
constant 120 bpm and returns `target_beat * 60 / 120` instead of failing. -/
theorem C8_empty_table_fallback (target_beat : ℚ) (tempo_map_dict : List (ℚ × ℚ)) :
    get_time_from_beat target_beat [] tempo_map_dict = target_beat * 60 / 120 := by
  simp [get_time_from_beat]

/-! ## C10 — minimum duration in `midi_to_json.py` -/

/-- C10: every note emitted by `midi_to_json.py` has strictly positive
`duration_beat`; when the computed `end_beat - start_beat` is non-positive,
the duration is exactly one tick (`1/resolution` beats). -/
theorem C10_min_duration (resolution pitch velocity start_tick end_tick : ℤ) (track : ℕ)
    (hres : 0 < resolution) :
    0 < (midiNoteToJson resolution pitch velocity start_tick end_tick track).duration_beat ∧
      (ticks_to_beats end_tick resolution - ticks_to_beats start_tick resolution ≤ 0 →
        (midiNoteToJson resolution pitch velocity start_tick end_tick track).duration_beat =
          ticks_to_beats 1 resolution) := by
  have hres' : (0 : ℚ) < (resolution : ℚ) := by exact_mod_cast hres
  constructor
  · by_cases h : ticks_to_beats end_tick resolution - ticks_to_beats start_tick resolution ≤ 0
    · simp only [midiNoteToJson, h, if_true]
      simpa [ticks_to_beats] using div_pos one_pos hres'
    · simp only [midiNoteToJson, h, if_false]
      linarith [not_le.mp h]
  · intro h
    simp [midiNoteToJson, h]

/-- Witness for `C10_min_duration`: a zero-length note (ticks 10 to 10) at
resolution 480 gets the one-tick duration. -/
theorem C10_witness :
    0 < (midiNoteToJson 480 60 100 10 10 0).duration_beat ∧
      (midiNoteToJson 480 60 100 10 10 0).duration_beat = ticks_to_beats 1 480 :=
  ⟨(C10_min_duration 480 60 100 10 10 0 (by norm_num)).1,
    (C10_min_duration 480 60 100 10 10 0 (by norm_num)).2 (by norm_num [ticks_to_beats])⟩

/-! ## C9 — track-0 instrument creation -/

/-- C9 counterexample: for a single note with explicit `track = -1`, an
instrument for track 0 *is* created even though no note carries an explicit
track 0 and some note does carry a `track` key — refuting the claimed "only
created when" condition. -/
theorem C9_counterexample :
    (0 : ℤ) ∈ instrumentTracks [.record (some 60) (some 0) (some 1) none (some (-1))] ∧
      (0 : ℤ) ∉ explicitTracks [.record (some 60) (some 0) (some 1) none (some (-1))] ∧
      explicitTracks [.record (some 60) (some 0) (some 1) none (some (-1))] ≠ [] := by
  refine ⟨?_, ?_, ?_⟩ <;> simp [instrumentTracks, explicitTracks]

/-- C9 amended: an instrument for track 0 exists exactly when some note
carries an explicit `track` 0 or no note carries an explicit *nonnegative*
track value; the claim's consequence stands: with one explicit-track-1 note
and one note without a `track` key, the defaulted-track-0 note is skipped and
counted while the other is converted. -/
theorem C9_amended :
    (∀ notes : List RawNote,
        ((0 : ℤ) ∈ instrumentTracks notes ↔
          (0 : ℤ) ∈ explicitTracks notes ∨ ∀ t ∈ explicitTracks notes, t < 0)) ∧
      instrumentTracks [.record (some 60) (some 0) (some 1) none (some 1),
        .record (some 62) (some 0) (some 1) none none] = [1] ∧
      (∀ m d : List (ℚ × ℚ),
        processNote m d [1] (.record (some 62) (some 0) (some 1) none none) = .skipped) ∧
      (processAllNotes [] [] [1]
        [.record (some 60) (some 0) (some 1) none (some 1),
          .record (some 62) (some 0) (some 1) none none]).2.2 = 1 := by
  refine ⟨?_, ?_, ?_, ?_⟩
  · intro notes
    by_cases h : (explicitTracks notes).filter (fun t => decide (0 ≤ t)) = []
    · have h0 : instrumentTracks notes = [0] := by simp [instrumentTracks, h]
      rw [h0]
      refine iff_of_true (List.mem_singleton.mpr rfl) (Or.inr fun t ht => ?_)
      have := List.filter_eq_nil_iff.mp h t ht
      simpa using this
    · simp only [instrumentTracks, if_neg h]
      constructor
      · intro h0
        exact Or.inl (List.mem_filter.mp h0).1
      · rintro (h0 | hall)
        · exact List.mem_filter.mpr ⟨h0, by norm_num⟩
        · exact absurd (List.filter_eq_nil_iff.mpr fun t ht => by simpa using (hall t ht).not_le) h
  · simp [instrumentTracks, explicitTracks]
  · intro m d
    norm_num [processNote]
  · norm_num [processAllNotes, noteFold, processNote, get_time_from_beat]

/-! ## Invariants of the anchor table (toward C1) -/

/-- Looking a key up past a prepended entry with a different key is unchanged. -/
theorem dictGet_cons_ne (k v b dflt : ℚ) (d : List (ℚ × ℚ)) (h : b ≠ k) :
    dictGet ((k, v) :: d) b dflt = dictGet d b dflt := by
  simp [dictGet, List.find?, Ne.symm h]

/-- Looking up the key of the most recently prepended entry yields its value. -/
theorem dictGet_cons_self (k v dflt : ℚ) (d : List (ℚ × ℚ)) :
    dictGet ((k, v) :: d) k dflt = v := by
  simp [dictGet, List.find?]

/-- The linking invariant of the built `beat_time_map`: beats strictly
increase and each anchor's time is the previous anchor's time plus the beat
delta converted at the previous anchor's stored bpm. -/
def Linked (d : List (ℚ × ℚ)) : List (ℚ × ℚ) → Prop
  | [] => True
  | [_] => True
  | p :: q :: rest =>
      p.1 < q.1 ∧ q.2 = p.2 + (q.1 - p.1) * 60 / dictGet d p.1 120 ∧ Linked d (q :: rest)

/-- Every anchor's stored bpm is positive. -/
def BpmsPos (d m : List (ℚ × ℚ)) : Prop := ∀ p ∈ m, 0 < dictGet d p.1 120

/-- The invariant `Linked` survives prepending a dict entry whose key is none of the
anchors' beats. -/
theorem Linked_dict_shadow (d : List (ℚ × ℚ)) (k v : ℚ) :
    ∀ m : List (ℚ × ℚ), (∀ p ∈ m, p.1 ≠ k) → Linked d m → Linked ((k, v) :: d) m := by
  intro m
  induction m with
  | nil => intro _ _; trivial
  | cons p m ih =>
      intro hne hl
      cases m with
      | nil => trivial
      | cons q rest =>
          simp only [Linked] at hl ⊢
          obtain ⟨h1, h2, h3⟩ := hl
          refine ⟨h1, ?_, ih (fun x hx => hne x (List.mem_cons_of_mem _ hx)) h3⟩
          rw [dictGet_cons_ne _ _ _ _ _ (hne p (List.mem_cons_self _ _))]
          exact h2

/-- The predicate `BpmsPos` survives prepending a dict entry whose key is none of the
anchors' beats. -/
theorem BpmsPos_dict_shadow (d : List (ℚ × ℚ)) (k v : ℚ) (m : List (ℚ × ℚ))
    (hne : ∀ p ∈ m, p.1 ≠ k) (h : BpmsPos d m) : BpmsPos ((k, v) :: d) m := by
  intro p hp
  rw [dictGet_cons_ne _ _ _ _ _ (hne p hp)]
  exact h p hp

/-- Appending a new anchor whose time satisfies the linking equation with the
old last anchor preserves `Linked`. -/
theorem Linked_concat (d : List (ℚ × ℚ)) (b t : ℚ) :
    ∀ (m : List (ℚ × ℚ)) (p : ℚ × ℚ), Linked d m → m.getLast? = some p → p.1 < b →
      t = p.2 + (b - p.1) * 60 / dictGet d p.1 120 → Linked d (m ++ [(b, t)]) := by
  intro m
  induction m with
  | nil => intro p _ hlast _ _; simp at hlast
  | cons q m ih =>
      intro p hl hlast hlt ht
      cases m with
      | nil =>
          simp only [List.getLast?_singleton, Option.some_inj] at hlast
          subst hlast
          simp only [List.cons_append, List.nil_append, Linked]
          exact ⟨hlt, ht, trivial⟩
      | cons r rest =>
          simp only [Linked] at hl
          obtain ⟨h1, h2, h3⟩ := hl
          have hlast' : (r :: rest).getLast? = some p := by
            rwa [List.getLast?_cons_cons] at hlast
          simp only [List.cons_append, Linked]
          exact ⟨h1, h2, ih p h3 hlast' hlt ht⟩

/-- The segment search ignores an exact duplicate at the head. -/
theorem findSeg_dup (z : ℚ) (p : ℚ × ℚ) (rest : List (ℚ × ℚ)) :
    findSeg (p :: p :: rest) z = findSeg (p :: rest) z := by
  show (if p.1 ≤ z ∧ z < p.1 then p else findSeg (p :: rest) z) = findSeg (p :: rest) z
  rw [if_neg]
  rintro ⟨h1, h2⟩
  exact absurd (lt_of_le_of_lt h1 h2) (lt_irrefl _)

/-- Unfolding of `get_time_from_beat` on a nonempty table, written via `findSeg`. -/
theorem get_time_nonempty (z : ℚ) (a : ℚ × ℚ) (m d : List (ℚ × ℚ)) :
    get_time_from_beat z (a :: m) d =
      (findSeg (a :: m) z).2 +
        if 0 < dictGet d (findSeg (a :: m) z).1 120 then
          (z - (findSeg (a :: m) z).1) * 60 / dictGet d (findSeg (a :: m) z).1 120
        else 0 := by
  simp [get_time_from_beat]

/-- The conversion `get_time_from_beat` ignores an exact duplicate at the head of the
table. -/
theorem get_time_dup (z : ℚ) (p : ℚ × ℚ) (rest d : List (ℚ × ℚ)) :
    get_time_from_beat z (p :: p :: rest) d = get_time_from_beat z (p :: rest) d := by
  rw [get_time_nonempty, get_time_nonempty, findSeg_dup]

/-- At an anchor's own beat, the conversion returns the anchor's time. -/
theorem get_time_head (d : List (ℚ × ℚ)) (b t : ℚ) (rest : List (ℚ × ℚ))
    (hl : Linked d ((b, t) :: rest)) : get_time_from_beat b ((b, t) :: rest) d = t := by
  have hseg : findSeg ((b, t) :: rest) b = (b, t) := by
    cases rest with
    | nil => rfl
    | cons q rest' =>
        simp only [Linked] at hl
        show (if b ≤ b ∧ b < q.1 then ((b, t) : ℚ × ℚ) else findSeg (q :: rest') b) = (b, t)
        exact if_pos ⟨le_refl b, hl.1⟩
  rw [get_time_nonempty, hseg]
  simp

/-- Within one segment, interpolation at a positive bpm is monotone. -/
theorem seg_interp_mono (t0 b0 s x y : ℚ) (hs : 0 < s) (hxy : x ≤ y) :
    t0 + (x - b0) * 60 / s ≤ t0 + (y - b0) * 60 / s := by
  have h : (x - b0) * 60 ≤ (y - b0) * 60 := by linarith
  have h2 := (div_le_div_iff_of_pos_right hs).mpr h
  linarith

/-- Monotonicity of `get_time_from_beat` over a linked anchor table with
positive bpms, for target beats at or past the first anchor. -/
theorem get_time_mono_aux (d : List (ℚ × ℚ)) :
    ∀ (tl : List (ℚ × ℚ)) (b0 t0 x y : ℚ), Linked d ((b0, t0) :: tl) →
      BpmsPos d ((b0, t0) :: tl) → b0 ≤ x → x ≤ y →
      get_time_from_beat x ((b0, t0) :: tl) d ≤ get_time_from_beat y ((b0, t0) :: tl) d := by
  intro tl
  induction tl with
  | nil =>
      intro b0 t0 x y _ hb hx hxy
      have hbpm : 0 < dictGet d b0 120 := by
        simpa using hb (b0, t0) (List.mem_singleton.mpr rfl)
      rw [get_time_nonempty, get_time_nonempty]
      have hsx : findSeg [(b0, t0)] x = (b0, t0) := rfl
      have hsy : findSeg [(b0, t0)] y = (b0, t0) := rfl
      rw [hsx, hsy]
      rw [if_pos hbpm, if_pos hbpm]
      exact seg_interp_mono t0 b0 _ x y hbpm hxy
  | cons q tl ih =>
      intro b0 t0 x y hl hb hx hxy
      rcases q with ⟨b1, t1⟩
      simp only [Linked] at hl
      obtain ⟨hq, heq, hl'⟩ := hl
      have hbpm0 : 0 < dictGet d b0 120 := by
        simpa using hb (b0, t0) (List.mem_cons_self _ _)
      have hb' : BpmsPos d ((b1, t1) :: tl) := fun p hp => hb p (List.mem_cons_of_mem _ hp)
      have hseg_first : ∀ z : ℚ, b0 ≤ z → z < b1 →
          findSeg ((b0, t0) :: (b1, t1) :: tl) z = (b0, t0) := by
        intro z hz0 hz1
        show (if b0 ≤ z ∧ z < b1 then ((b0, t0) : ℚ × ℚ) else findSeg ((b1, t1) :: tl) z) =
          (b0, t0)
        exact if_pos ⟨hz0, hz1⟩
      have hred : ∀ z : ℚ, b1 ≤ z →
          get_time_from_beat z ((b0, t0) :: (b1, t1) :: tl) d =
            get_time_from_beat z ((b1, t1) :: tl) d := by
        intro z hz
        have hseg : findSeg ((b0, t0) :: (b1, t1) :: tl) z = findSeg ((b1, t1) :: tl) z := by
          show (if b0 ≤ z ∧ z < b1 then ((b0, t0) : ℚ × ℚ) else findSeg ((b1, t1) :: tl) z) = _
          rw [if_neg]
          rintro ⟨_, hcon⟩
          exact absurd hcon (not_lt.mpr hz)
        rw [get_time_nonempty, get_time_nonempty, hseg]
      rcases lt_or_le x b1 with hx1 | hx1
      · rcases lt_or_le y b1 with hy1 | hy1
        · rw [get_time_nonempty, get_time_nonempty, hseg_first x hx hx1,
            hseg_first y (le_trans hx hxy) hy1]
          dsimp only
          rw [if_pos hbpm0, if_pos hbpm0]
          exact seg_interp_mono t0 b0 _ x y hbpm0 hxy
        · have h1 : get_time_from_beat x ((b0, t0) :: (b1, t1) :: tl) d ≤ t1 := by
            rw [get_time_nonempty, hseg_first x hx hx1]
            dsimp only
            rw [if_pos hbpm0]
            have hle := seg_interp_mono t0 b0 _ x b1 hbpm0 (le_of_lt hx1)
            linarith [hle, heq.symm.le, heq.le]
          have h2 : t1 = get_time_from_beat b1 ((b1, t1) :: tl) d :=
            (get_time_head d b1 t1 tl hl').symm
          have h3 : get_time_from_beat b1 ((b1, t1) :: tl) d ≤
              get_time_from_beat y ((b1, t1) :: tl) d :=
            ih b1 t1 b1 y hl' hb' (le_refl b1) hy1
          rw [hred y hy1]
          linarith
      · rw [hred x hx1, hred y (le_trans hx1 hxy)]
        exact ih b1 t1 x y hl' hb' hx1 hxy

/-- The loop invariant of the anchor-table build: the table consists of the
initial `(0,0)` entry, a duplicate `(0,0)` appended at `i = 0`, and a linked
tail with positive bpms whose last entry matches the loop's running
`(last_beat, current_time_sec)` with `dict[last_beat] = last_bpm > 0`. -/
def Inv (st : BuildState) : Prop :=
  ∃ A : List (ℚ × ℚ),
    st.beat_time_map = (0, 0) :: (0, 0) :: A ∧
    Linked st.tempo_map_dict ((0, 0) :: A) ∧
    BpmsPos st.tempo_map_dict ((0, 0) :: A) ∧
    ((0, 0) :: A).getLast? = some (st.last_beat, st.current_time_sec) ∧
    dictGet st.tempo_map_dict st.last_beat 120 = st.last_bpm ∧
    0 < st.last_bpm ∧
    ∀ p ∈ (0, 0) :: A, p.1 ≤ st.last_beat

/-- One build step at `i ≠ 0` on an event strictly past `last_beat` preserves
the invariant and moves `last_beat` to the event's beat. -/
theorem buildStep_inv (st : BuildState) (e : TempoEvent) (i : ℕ) (hi : i ≠ 0)
    (hinv : Inv st) (hgt : st.last_beat < e.beat) :
    Inv (buildStep i st e) ∧ (buildStep i st e).last_beat = e.beat := by
  obtain ⟨A, hmap, hlink, hpos, hlast, hdict, hbpm, hbound⟩ := hinv
  have hnotlt : ¬ e.beat < st.last_beat := not_lt.mpr (le_of_lt hgt)
  have hcond : 0 < i ∧ 0 < st.last_bpm := ⟨Nat.pos_of_ne_zero hi, hbpm⟩
  have happend : e.beat > st.last_beat ∨ i = 0 := Or.inl hgt
  have hstep : buildStep i st e =
      ⟨st.beat_time_map ++
          [(e.beat, st.current_time_sec + (e.beat - st.last_beat) * 60 / st.last_bpm)],
        (e.beat, if e.bpm ≤ 0 then 120 else e.bpm) :: st.tempo_map_dict,
        st.current_time_sec + (e.beat - st.last_beat) * 60 / st.last_bpm,
        e.beat, if e.bpm ≤ 0 then 120 else e.bpm⟩ := by
    simp only [buildStep, if_neg hnotlt, if_pos hcond, if_pos happend]
  set bpm' := if e.bpm ≤ 0 then (120 : ℚ) else e.bpm with hbpmdef
  set t' := st.current_time_sec + (e.beat - st.last_beat) * 60 / st.last_bpm with htdef
  have hbpm' : 0 < bpm' := by
    by_cases h : e.bpm ≤ 0
    · rw [hbpmdef, if_pos h]; norm_num
    · rw [hbpmdef, if_neg h]; exact not_le.mp h
  have hne : ∀ p ∈ (0, 0) :: A, p.1 ≠ e.beat :=
    fun p hp => ne_of_lt (lt_of_le_of_lt (hbound p hp) hgt)
  have hlbne : st.last_beat ≠ e.beat := ne_of_lt hgt
  rw [hstep]
  refine ⟨⟨A ++ [(e.beat, t')], ?_, ?_, ?_, ?_, ?_, hbpm', ?_⟩, rfl⟩
  · rw [hmap, List.cons_append, List.cons_append]
  · have hshadow := Linked_dict_shadow st.tempo_map_dict e.beat bpm' _ hne hlink
    have hconc := Linked_concat ((e.beat, bpm') :: st.tempo_map_dict) e.beat t'
      ((0, 0) :: A) (st.last_beat, st.current_time_sec) hshadow hlast hgt
      (by rw [dictGet_cons_ne _ _ _ _ _ hlbne]; dsimp only; rw [hdict])
    rwa [List.cons_append] at hconc
  · intro p hp
    rw [← List.cons_append] at hp
    rcases List.mem_append.mp hp with h | h
    · rw [dictGet_cons_ne _ _ _ _ _ (hne p h)]
      exact hpos p h
    · have hpe : p = (e.beat, t') := by simpa using h
      subst hpe
      dsimp only
      rw [dictGet_cons_self]
      exact hbpm'
  · rw [← List.cons_append, List.getLast?_concat]
  · dsimp only
    rw [dictGet_cons_self]
  · intro p hp
    rw [← List.cons_append] at hp
    rcases List.mem_append.mp hp with h | h
    · exact le_of_lt (lt_of_le_of_lt (hbound p h) hgt)
    · have hpe : p = (e.beat, t') := by simpa using h
      subst hpe
      exact le_refl _

/-- Running the loop from any invariant state with strictly ascending
remaining events preserves the invariant. -/
theorem buildLoop_inv :
    ∀ (es : List TempoEvent) (i : ℕ) (st : BuildState), i ≠ 0 → Inv st →
      (∀ e ∈ es.head?, st.last_beat < e.beat) → List.Chain' beatLT es →
      Inv (buildLoop es i st) := by
  intro es
  induction es with
  | nil => intro i st _ hinv _ _; exact hinv
  | cons e rest ih =>
      intro i st hi hinv hhd hch
      simp only [buildLoop]
      have hgt : st.last_beat < e.beat := hhd e (by simp)
      obtain ⟨hinv', hlast'⟩ := buildStep_inv st e i hi hinv hgt
      rw [List.chain'_cons'] at hch
      exact ih (i + 1) _ (Nat.succ_ne_zero i) hinv'
        (fun r hr => by rw [hlast']; exact hch.1 r hr) hch.2

/-- The first iteration (`i = 0`) on a beat-0 event establishes the
invariant. -/
theorem buildStep_zero_inv (e : TempoEvent) (h0 : e.beat = 0) :
    Inv (buildStep 0 initState e) ∧ (buildStep 0 initState e).last_beat = 0 := by
  set bpm' := if e.bpm ≤ 0 then (120 : ℚ) else e.bpm with hbpmdef
  have hbpm' : 0 < bpm' := by
    by_cases h : e.bpm ≤ 0
    · rw [hbpmdef, if_pos h]; norm_num
    · rw [hbpmdef, if_neg h]; exact not_le.mp h
  have hstep : buildStep 0 initState e = ⟨[(0, 0), (0, 0)], [(0, bpm')], 0, 0, bpm'⟩ := by
    simp only [buildStep, initState, h0]
    norm_num
  rw [hstep]
  refine ⟨⟨[], rfl, trivial, ?_, rfl, ?_, hbpm', ?_⟩, rfl⟩
  · intro p hp
    have hpe : p = ((0 : ℚ), (0 : ℚ)) := by simpa using hp
    subst hpe
    dsimp only
    rw [dictGet_cons_self]
    exact hbpm'
  · rw [dictGet_cons_self]
  · intro p hp
    have hpe : p = ((0 : ℚ), (0 : ℚ)) := by simpa using hp
    subst hpe
    exact le_refl _

/-- Normalizing a nonempty tempo map with nonnegative, pairwise-distinct
beats yields a list starting at beat 0 with strictly ascending beats. -/
theorem normalize_strict (tm : List TempoEvent) (hne : tm ≠ [])
    (hnn : ∀ e ∈ tm, 0 ≤ e.beat) (hdist : tm.Pairwise (fun a b => a.beat ≠ b.beat)) :
    ∃ e0 tl, normalizeTempoMap tm = e0 :: tl ∧ e0.beat = 0 ∧
      List.Chain' beatLT (e0 :: tl) := by
  have hperm := List.perm_insertionSort beatLE tm
  have hsorted : List.Sorted beatLE (List.insertionSort beatLE tm) :=
    List.sorted_insertionSort beatLE tm
  have hdist' : (List.insertionSort beatLE tm).Pairwise (fun a b => a.beat ≠ b.beat) :=
    (hperm.pairwise_iff fun h => Ne.symm h).mpr hdist
  have hlt : (List.insertionSort beatLE tm).Pairwise beatLT := by
    refine (List.Pairwise.and hsorted hdist').imp ?_
    rintro a b ⟨hle, hne'⟩
    exact lt_of_le_of_ne hle hne'
  have hchain : List.Chain' beatLT (List.insertionSort beatLE tm) := hlt.chain'
  cases hs : List.insertionSort beatLE tm with
  | nil =>
      rw [hs] at hperm
      exact absurd hperm.symm.eq_nil hne
  | cons s0 srest =>
      rw [hs] at hchain hperm
      have h0nn : 0 ≤ s0.beat := hnn s0 (hperm.subset (List.mem_cons_self _ _))
      unfold normalizeTempoMap
      rw [hs]
      dsimp only
      by_cases hpos : s0.beat > 0
      · rw [if_pos hpos]
        refine ⟨⟨0, 120⟩, s0 :: srest, rfl, rfl, ?_⟩
        rw [List.chain'_cons]
        exact ⟨hpos, hchain⟩
      · rw [if_neg hpos]
        exact ⟨s0, srest, rfl, le_antisymm (not_lt.mp hpos) h0nn, hchain⟩

/-- C1 amended: over the anchor table built by normalizing a nonempty tempo
map whose events have nonnegative, pairwise-distinct beats,
`get_time_from_beat` is monotone nondecreasing on nonnegative beat
arguments. (The unrestricted claim fails: see the counterexample with two
events at the same beat.) -/
theorem C1_amended (tm : List TempoEvent) (hne : tm ≠ [])
    (hnn : ∀ e ∈ tm, 0 ≤ e.beat) (hdist : tm.Pairwise (fun a b => a.beat ≠ b.beat))
    (x y : ℚ) (hx : 0 ≤ x) (hxy : x ≤ y) :
    get_time_from_beat x (buildAnchors (normalizeTempoMap tm)).beat_time_map
        (buildAnchors (normalizeTempoMap tm)).tempo_map_dict ≤
      get_time_from_beat y (buildAnchors (normalizeTempoMap tm)).beat_time_map
        (buildAnchors (normalizeTempoMap tm)).tempo_map_dict := by
  obtain ⟨e0, tl, hn, h0, hch⟩ := normalize_strict tm hne hnn hdist
  rw [hn]
  rw [List.chain'_cons'] at hch
  have hstep0 := buildStep_zero_inv e0 h0
  have hinv : Inv (buildLoop tl 1 (buildStep 0 initState e0)) :=
    buildLoop_inv tl 1 _ one_ne_zero hstep0.1
      (fun r hr => by rw [hstep0.2]; exact h0 ▸ hch.1 r hr) hch.2
  have hba : buildAnchors (e0 :: tl) = buildLoop tl 1 (buildStep 0 initState e0) := rfl
  rw [hba]
  obtain ⟨A, hmap, hlink, hpos, -, -, -, -⟩ := hinv
  rw [hmap, get_time_dup, get_time_dup]
  exact get_time_mono_aux _ A 0 0 x y hlink hpos hx hxy

/-- Witness for `C1_amended` on the Scenario A tempo map at beats 1 ≤ 3. -/
theorem C1_witness :
    get_time_from_beat 1 (buildAnchors (normalizeTempoMap [⟨0, 120⟩, ⟨4, 60⟩])).beat_time_map
        (buildAnchors (normalizeTempoMap [⟨0, 120⟩, ⟨4, 60⟩])).tempo_map_dict ≤
      get_time_from_beat 3 (buildAnchors (normalizeTempoMap [⟨0, 120⟩, ⟨4, 60⟩])).beat_time_map
        (buildAnchors (normalizeTempoMap [⟨0, 120⟩, ⟨4, 60⟩])).tempo_map_dict :=
  C1_amended [⟨0, 120⟩, ⟨4, 60⟩] (by simp)
    (by intro e he; rcases List.mem_cons.mp he with rfl | he'
        · norm_num
        · rcases List.mem_cons.mp he' with rfl | h
          · norm_num
          · simp at h)
    (by refine List.pairwise_cons.mpr ⟨?_, List.pairwise_singleton _ _⟩
        intro b hb
        rcases List.mem_singleton.mp hb with rfl
        norm_num)
    1 3 (by norm_num) (by norm_num)

/-! ## C3 — duplicate-beat tie-break -/

/-- C3: with two tempo events at beat 2 (bpm 100 then bpm 80) after a prior
distinct anchor at beat 0 and before a next distinct anchor at beat `b3`,
only the first duplicate produces the beat-2 lookup entry (`dict[2] = 100`,
governing interpolation from beat 2), the second gains no anchor entry, and
its bpm 80 is used only to accumulate time into the beat-`b3` anchor. -/
theorem C3_duplicate_tiebreak (p0 p3 b3 : ℚ) (hp0 : 0 < p0) (hp3 : 0 < p3) (hb3 : 2 < b3) :
    dictGet (buildAnchors (normalizeTempoMap
        [⟨0, p0⟩, ⟨2, 100⟩, ⟨2, 80⟩, ⟨b3, p3⟩])).tempo_map_dict 2 120 = 100 ∧
      (buildAnchors (normalizeTempoMap
          [⟨0, p0⟩, ⟨2, 100⟩, ⟨2, 80⟩, ⟨b3, p3⟩])).beat_time_map =
        [(0, 0), (0, 0), (2, 120 / p0), (b3, 120 / p0 + (b3 - 2) * 60 / 80)] ∧
      ∀ z, 2 ≤ z → z < b3 →
        get_time_from_beat z
            (buildAnchors (normalizeTempoMap
              [⟨0, p0⟩, ⟨2, 100⟩, ⟨2, 80⟩, ⟨b3, p3⟩])).beat_time_map
            (buildAnchors (normalizeTempoMap
              [⟨0, p0⟩, ⟨2, 100⟩, ⟨2, 80⟩, ⟨b3, p3⟩])).tempo_map_dict =
          120 / p0 + (z - 2) * 60 / 100 := by
  have hsort : List.insertionSort beatLE [⟨0, p0⟩, ⟨2, 100⟩, ⟨2, 80⟩, ⟨b3, p3⟩] =
      [⟨0, p0⟩, ⟨2, 100⟩, ⟨2, 80⟩, ⟨b3, p3⟩] := by
    norm_num [List.insertionSort, List.orderedInsert, beatLE, hb3.le]
  have hnorm : normalizeTempoMap [⟨0, p0⟩, ⟨2, 100⟩, ⟨2, 80⟩, ⟨b3, p3⟩] =
      [⟨0, p0⟩, ⟨2, 100⟩, ⟨2, 80⟩, ⟨b3, p3⟩] := by
    unfold normalizeTempoMap
    rw [hsort]
    norm_num
  have hbuild : buildAnchors (normalizeTempoMap [⟨0, p0⟩, ⟨2, 100⟩, ⟨2, 80⟩, ⟨b3, p3⟩]) =
      ⟨[(0, 0), (0, 0), (2, 120 / p0), (b3, 120 / p0 + (b3 - 2) * 60 / 80)],
        [(b3, p3), (2, 100), (0, p0)], 120 / p0 + (b3 - 2) * 60 / 80, b3, p3⟩ := by
    rw [hnorm]
    norm_num [buildAnchors, buildLoop, buildStep, initState, hp0, hp0.not_le, hp3.not_le, hb3,
      lt_asymm hb3]
  have hdict : dictGet [(b3, p3), (2, 100), (0, p0)] 2 120 = 100 := by
    simp [dictGet, List.find?, hb3.ne']
  refine ⟨by rw [hbuild]; exact hdict, by rw [hbuild], ?_⟩
  intro z h2 hz
  rw [hbuild]
  have c1 : ¬ ((0 : ℚ) ≤ z ∧ z < 0) := by rintro ⟨hz1, hz2⟩; linarith
  have c2 : ¬ ((0 : ℚ) ≤ z ∧ z < 2) := by rintro ⟨hz1, hz2⟩; linarith
  have hseg : findSeg [(0, 0), (0, 0), (2, 120 / p0),
      (b3, 120 / p0 + (b3 - 2) * 60 / 80)] z = (2, 120 / p0) := by
    simp only [findSeg, if_neg c1, if_neg c2, if_pos (And.intro h2 hz)]
  simp only [get_time_from_beat, if_neg (List.cons_ne_nil _ _), hseg, hdict]
  norm_num

/-- Witness for `C3_duplicate_tiebreak` at `p0 = 120`, `p3 = 100`, `b3 = 4`,
interpolated at beat `z = 3`. -/
theorem C3_witness :
    dictGet (buildAnchors (normalizeTempoMap
        [⟨0, 120⟩, ⟨2, 100⟩, ⟨2, 80⟩, ⟨4, 100⟩])).tempo_map_dict 2 120 = 100 ∧
      (buildAnchors (normalizeTempoMap
          [⟨0, 120⟩, ⟨2, 100⟩, ⟨2, 80⟩, ⟨4, 100⟩])).beat_time_map =
        [(0, 0), (0, 0), (2, 120 / 120), (4, 120 / 120 + (4 - 2) * 60 / 80)] ∧
      get_time_from_beat 3
          (buildAnchors (normalizeTempoMap
            [⟨0, 120⟩, ⟨2, 100⟩, ⟨2, 80⟩, ⟨4, 100⟩])).beat_time_map
          (buildAnchors (normalizeTempoMap
            [⟨0, 120⟩, ⟨2, 100⟩, ⟨2, 80⟩, ⟨4, 100⟩])).tempo_map_dict =
        120 / 120 + (3 - 2) * 60 / 100 :=
  ⟨(C3_duplicate_tiebreak 120 100 4 (by norm_num) (by norm_num) (by norm_num)).1,
    (C3_duplicate_tiebreak 120 100 4 (by norm_num) (by norm_num) (by norm_num)).2.1,
    (C3_duplicate_tiebreak 120 100 4 (by norm_num) (by norm_num) (by norm_num)).2.2 3
      (by norm_num) (by norm_num)⟩

/-- Witness for `C9_amended`: a note list whose only explicit track is
negative still gets the default track-0 instrument. -/
theorem C9_witness :
    (0 : ℤ) ∈ instrumentTracks [RawNote.record none none none none (some (-1))] :=
  (C9_amended.1 [RawNote.record none none none none (some (-1))]).mpr
    (Or.inr (by
      intro t ht
      simp [explicitTracks] at ht
      rw [ht]
      norm_num))

/-! ## C6 — non-positive duration clamp -/

/-- C6: a note that passes validation but whose converted end time is `≤` its
converted start time is kept, with its end time clamped to
`start_time + 0.001` seconds and the clamp warning emitted. -/
theorem C6_clamp (m d : List (ℚ × ℚ)) (instr : List ℤ) (pitch : ℤ) (sb db : ℚ)
    (v? t? : Option ℤ)
    (hp : 0 ≤ pitch ∧ pitch ≤ 127) (hv : 0 ≤ v?.getD 100 ∧ v?.getD 100 ≤ 127)
    (hsb : 0 ≤ sb) (hdb : 0 < db) (htr : t?.getD 0 ∈ instr)
    (hclamp : get_time_from_beat (sb + db) m d ≤ get_time_from_beat sb m d) :
    processNote m d instr (.record (some pitch) (some sb) (some db) v? t?) =
      .added ⟨v?.getD 100, pitch, get_time_from_beat sb m d,
        get_time_from_beat sb m d + 1 / 1000⟩ true := by
  simp only [processNote]
  rw [if_neg (not_not_intro hp), if_neg (not_not_intro hv), if_neg (not_lt.mpr hsb),
    if_neg (not_le.mpr hdb), if_neg (not_not_intro htr), if_pos hclamp]

/-- Witness for `C6_clamp`: over the (deliberately non-monotone) anchor table
`[(0,10),(1,0)]`, a valid half-beat note starting at beat `1/2` has
`end_time ≤ start_time` and gets clamped. -/
theorem C6_witness :
    processNote [(0, 10), (1, 0)] [] [0]
        (.record (some 60) (some (1 / 2)) (some (1 / 2)) none none) =
      .added ⟨100, 60, get_time_from_beat (1 / 2) [(0, 10), (1, 0)] [],
        get_time_from_beat (1 / 2) [(0, 10), (1, 0)] [] + 1 / 1000⟩ true :=
  C6_clamp [(0, 10), (1, 0)] [] [0] 60 (1 / 2) (1 / 2) none none (by norm_num) (by norm_num)
    (by norm_num) (by norm_num) (by simp)
    (by norm_num [get_time_from_beat, findSeg, dictGet, List.cons_ne_nil])

/-! ## C7 — note validation loop -/

/-- Unfolding of `noteFold` when the note is added. -/
theorem noteFold_eq_added (m d : List (ℚ × ℚ)) (instr : List ℤ)
    (acc : List MidiNote × ℕ × ℕ) (r : RawNote) (n : MidiNote) (w : Bool)
    (h : processNote m d instr r = .added n w) :
    noteFold m d instr acc r = (acc.1 ++ [n], acc.2.1 + 1, acc.2.2) := by
  simp [noteFold, h]

/-- Unfolding of `noteFold` when the note is skipped. -/
theorem noteFold_eq_skipped (m d : List (ℚ × ℚ)) (instr : List ℤ)
    (acc : List MidiNote × ℕ × ℕ) (r : RawNote)
    (h : processNote m d instr r = .skipped) :
    noteFold m d instr acc r = (acc.1, acc.2.1, acc.2.2 + 1) := by
  simp [noteFold, h]

/-- The note loop adds exactly `note_count` notes to the output. -/
theorem foldl_noteFold_len (m d : List (ℚ × ℚ)) (instr : List ℤ) (notes : List RawNote) :
    ∀ acc : List MidiNote × ℕ × ℕ,
      (notes.foldl (noteFold m d instr) acc).1.length + acc.2.1 =
        (notes.foldl (noteFold m d instr) acc).2.1 + acc.1.length := by
  induction notes with
  | nil => intro acc; simp; omega
  | cons r notes ih =>
      intro acc
      simp only [List.foldl_cons]
      rcases hr : processNote m d instr r with ⟨n, w⟩ | _
      · rw [noteFold_eq_added m d instr acc r n w hr]
        have h := ih (acc.1 ++ [n], acc.2.1 + 1, acc.2.2)
        simp only [List.length_append, List.length_singleton] at h
        omega
      · rw [noteFold_eq_skipped m d instr acc r hr]
        exact ih (acc.1, acc.2.1, acc.2.2 + 1)

/-- Every note ends up counted, either as converted or as skipped. -/
theorem foldl_noteFold_total (m d : List (ℚ × ℚ)) (instr : List ℤ) (notes : List RawNote) :
    ∀ acc : List MidiNote × ℕ × ℕ,
      (notes.foldl (noteFold m d instr) acc).2.1 + (notes.foldl (noteFold m d instr) acc).2.2 =
        acc.2.1 + acc.2.2 + notes.length := by
  induction notes with
  | nil => intro acc; simp
  | cons r notes ih =>
      intro acc
      simp only [List.foldl_cons, List.length_cons]
      rcases hr : processNote m d instr r with ⟨n, w⟩ | _
      · rw [noteFold_eq_added m d instr acc r n w hr]
        have h := ih (acc.1 ++ [n], acc.2.1 + 1, acc.2.2)
        simp only at h
        omega
      · rw [noteFold_eq_skipped m d instr acc r hr]
        have h := ih (acc.1, acc.2.1, acc.2.2 + 1)
        simp only at h
        omega

/-- The skip counter counts exactly the skipped notes. -/
theorem foldl_noteFold_skips (m d : List (ℚ × ℚ)) (instr : List ℤ) (notes : List RawNote) :
    ∀ acc : List MidiNote × ℕ × ℕ,
      (notes.foldl (noteFold m d instr) acc).2.2 =
        acc.2.2 + notes.countP (fun r => decide (processNote m d instr r = .skipped)) := by
  induction notes with
  | nil => intro acc; simp
  | cons r notes ih =>
      intro acc
      simp only [List.foldl_cons, List.countP_cons]
      rcases hr : processNote m d instr r with ⟨n, w⟩ | _
      · rw [noteFold_eq_added m d instr acc r n w hr]
        have h := ih (acc.1 ++ [n], acc.2.1 + 1, acc.2.2)
        simp only at h
        rw [h]
        simp [hr]
      · rw [noteFold_eq_skipped m d instr acc r hr]
        have h := ih (acc.1, acc.2.1, acc.2.2 + 1)
        simp only at h
        rw [h]
        simp [hr]
        omega

/-- C7: every note violating a validation rule (non-record, missing required
field, pitch/velocity out of `[0,127]`, `start_beat < 0`, `duration_beat ≤ 0`)
is skipped; over any input list the loop never aborts: converted and skipped
notes always partition the input, the output holds exactly the converted
notes, and the skip counter counts exactly the rejections. -/
theorem C7_invalid_rejected (m d : List (ℚ × ℚ)) (instr : List ℤ) :
    (∀ r : RawNote, InvalidNote r → processNote m d instr r = .skipped) ∧
      ∀ notes : List RawNote,
        (processAllNotes m d instr notes).2.1 + (processAllNotes m d instr notes).2.2 =
            notes.length ∧
          (processAllNotes m d instr notes).1.length = (processAllNotes m d instr notes).2.1 ∧
          (processAllNotes m d instr notes).2.2 =
            notes.countP (fun r => decide (processNote m d instr r = .skipped)) := by
  constructor
  · intro r hr
    rcases r with _ | ⟨p?, sb?, db?, v?, t?⟩
    · rfl
    · rcases p? with _ | p
      · simp [processNote]
      · rcases sb? with _ | sb
        · simp [processNote]
        · rcases db? with _ | db
          · simp [processNote]
          · simp only [InvalidNote] at hr
            rcases hr with h | h | h | h <;> simp [processNote, h]
  · intro notes
    refine ⟨?_, ?_, ?_⟩
    · simpa using foldl_noteFold_total m d instr notes ([], 0, 0)
    · simpa using foldl_noteFold_len m d instr notes ([], 0, 0)
    · simpa using foldl_noteFold_skips m d instr notes ([], 0, 0)

/-- Witness for `C7_invalid_rejected`: the Scenario D note with
`start_beat = -1` is skipped. -/
theorem C7_witness :
    processNote [] [] [0] (.record (some 60) (some (-1)) (some 1) none none) =
      .skipped :=
  (C7_invalid_rejected [] [] [0]).1 (.record (some 60) (some (-1)) (some 1) none none)
    (by norm_num [InvalidNote])

end AiPiano
